import Mathlib

/-!
# Verification of the metarhia/tools label-synchronization engine

Shallow embedding of `src/lib/labels.js`, which contains two revisions of
`LabelHandler`: a promise-based revision (async methods, `Promise.all`) and a
callback-based revision (callbacks, `metasync.series`).  Network transport is
modelled as an oracle from requests to responses; every method that performs
I/O additionally returns the list of requests it issued, so that properties
about which requests are (or are not) sent can be stated.
-/

set_option autoImplicit false

namespace LabelsJs

/-- A GitHub label as handled by `labels.js`: `{ name, color, description }`.
`description` is optional in the source. -/
structure Label where
  name : String
  color : String
  description : Option String := none
  deriving DecidableEq, Repr

/-- An issue, as far as `getUsedLabels` looks at it: only its `labels` array. -/
structure Issue where
  labels : List Label
  deriving DecidableEq, Repr

/-! ## JavaScript string primitives

The source uses `split`, `trim`, `slice`, `includes`, `encodeURIComponent`
and `String.prototype.replace`.  They are modelled here over `List Char`
by structural recursion so that every definition is kernel-executable. -/

/-- `s.split(c)` for a single-character separator, as in the source's
`link.split(',')` and `s.split(';')`. -/
def jsSplitAux (c : Char) : List Char → List Char → List (List Char)
  | [], cur => [cur.reverse]
  | x :: xs, cur =>
    if x = c then cur.reverse :: jsSplitAux c xs [] else jsSplitAux c xs (x :: cur)

/-- `String.prototype.split` with a one-character separator. -/
def jsSplit (c : Char) (s : String) : List String :=
  (jsSplitAux c s.toList []).map String.mk

/-- `String.prototype.trim`. -/
def jsTrim (s : String) : String :=
  String.mk (((s.toList.dropWhile Char.isWhitespace).reverse.dropWhile
    Char.isWhitespace).reverse)

/-- `s.slice(a, -1)`: drop the first `a` characters and the last one. -/
def jsSliceToLast (a : Nat) (s : String) : String :=
  String.mk ((s.toList.drop a).dropLast)

/-- `s.includes(c)` for a one-character needle (the source tests
`path.includes('?')`). -/
def jsIncludes (s : String) (c : Char) : Bool :=
  s.toList.contains c

/-- UTF-8 bytes of a code point, used by `encodeURIComponent`. -/
def utf8Bytes (n : Nat) : List Nat :=
  if n < 0x80 then [n]
  else if n < 0x800 then [0xC0 + n / 64, 0x80 + n % 64]
  else if n < 0x10000 then
    [0xE0 + n / 4096, 0x80 + (n / 64) % 64, 0x80 + n % 64]
  else
    [0xF0 + n / 262144, 0x80 + (n / 4096) % 64, 0x80 + (n / 64) % 64,
      0x80 + n % 64]

/-- Upper-case hexadecimal digit, as produced by `encodeURIComponent`. -/
def hexDigit (n : Nat) : Char :=
  if n < 10 then Char.ofNat (48 + n) else Char.ofNat (55 + n)

/-- Characters `encodeURIComponent` leaves unescaped:
`A-Z a-z 0-9 - _ . ! ~ * ' ( )`. -/
def isURIUnescaped (c : Char) : Bool :=
  c.isAlpha || c.isDigit ||
    [45, 95, 46, 33, 126, 42, 39, 40, 41].contains c.toNat

/-- `encodeURIComponent` over a character list. -/
def encodeURIComponentL (cs : List Char) : List Char :=
  cs.flatMap fun c =>
    if isURIUnescaped c then [c]
    else (utf8Bytes c.toNat).flatMap fun b =>
      ['%', hexDigit (b / 16), hexDigit (b % 16)]

/-- JavaScript's `encodeURIComponent`. -/
def encodeURIComponent (s : String) : String :=
  String.mk (encodeURIComponentL s.toList)

/-- `.replace(/%22/g, '%5C"')` from `getUsedLabels`: every occurrence of
`%22` is rewritten to `%5C"`, scanning left to right. -/
def replaceQuoteEsc : List Char → List Char
  | '%' :: '2' :: '2' :: rest => '%' :: '5' :: 'C' :: '"' :: replaceQuoteEsc rest
  | c :: rest => c :: replaceQuoteEsc rest
  | [] => []

/-- The name escaping applied by `getUsedLabels`:
`encodeURIComponent(label.name).replace(/%22/g, '%5C"')`. -/
def escapeName (name : String) : String :=
  String.mk (replaceQuoteEsc (encodeURIComponentL name.toList))

/-! ## `parseLinkHeader` and the JS `Map` it builds -/

/-- `parseLinkHeader` from `labels.js`:
splits the header on `,`, each entry on `;`, and extracts
`rel.trim().slice(5, -1)` (the relation name) and `url.trim().slice(1, -1)`
(the URL without its angle brackets).  An entry without a `;` would make the
source throw a `TypeError` on `rel.trim()`; such malformed entries are
dropped here (no theorem relies on them). -/
def parseLinkHeader (link : String) : List (String × String) :=
  (jsSplit ',' link).filterMap fun s =>
    match jsSplit ';' s with
    | url :: rel :: _ =>
      some (jsSliceToLast 5 (jsTrim rel), jsSliceToLast 1 (jsTrim url))
    | _ => none

/-- `new Map(pairs).get(key)`: on duplicate keys the last pair wins, a miss
returns `undefined` (here `none`). -/
def jsMapGet (pairs : List (String × String)) (key : String) : Option String :=
  (pairs.reverse.find? fun p => p.1 = key).map Prod.snd

/-! ## The pagination walker `[getWithPaging]`

The transport is an oracle `server : String → Option (List α × Option String)`
mapping a request path to the decoded JSON body (a list of records) and the
optional `link` response header; `none` is a transport failure.  The `while`
loop of the source is rendered as recursion on a fuel bound: the walker
answers `none` when the fuel runs out, so a `some` answer describes exactly
the finite request/response exchange the source would perform. -/

def getWithPagingGo {α : Type} (server : String → Option (List α × Option String)) :
    Nat → String → Option (List String × List α)
  | 0, _ => none
  | fuel + 1, path =>
    match server path with
    | none => none
    | some (items, none) => some ([path], items)
    | some (items, some link) =>
      match jsMapGet (parseLinkHeader link) "next" with
      | none => some ([path], items)
      | some next =>
        if next = "" then some ([path], items)
        else
          match getWithPagingGo server fuel next with
          | none => none
          | some (log, acc) => some (path :: log, items ++ acc)

/-- `[getWithPaging](path)`: appends `per_page=100` (with `&` if the path
already has a query string, else `?`) and walks `next` relations.  Returns
the ordered request log together with the flattened items. -/
def getWithPaging {α : Type} (server : String → Option (List α × Option String))
    (fuel : Nat) (path : String) : Option (List String × List α) :=
  getWithPagingGo server fuel
    (path ++ (if jsIncludes path '?' then "&" else "?") ++ "per_page=100")

/-! ## Paths and request bodies -/

/-- `[getPath](repo, labelName)`: `/repos/{repo}/labels` with the
percent-encoded label name appended when one is given. -/
def getPath (repo : String) (labelName : String := "") : String :=
  let ln := if labelName = "" then "" else "/" ++ encodeURIComponent labelName
  "/repos/" ++ repo ++ "/labels" ++ ln

/-- `JSON.stringify(label)`; `description` is omitted when `undefined`,
exactly as `JSON.stringify` drops absent fields. -/
def serializeLabel (l : Label) : String :=
  "\x7b\"name\":\"" ++ l.name ++ "\",\"color\":\"" ++ l.color ++ "\"" ++
    (match l.description with
     | none => ""
     | some d => ",\"description\":\"" ++ d ++ "\"") ++ "\x7d"

/-- An HTTP request issued through `[request]`: method, path, optional body. -/
structure Request where
  method : String
  path : String
  body : Option String := none
  deriving DecidableEq, Repr

/-! ## The batch branch of `createIn` (promise revision)

`createIn(repo, label)` with an array argument executes

```
return Promise.all(
  label.map(label => this[request](path, 'POST', JSON.stringify(label)))
).map(({ data }) => JSON.parse(data));
```

`label.map(...)` fires one POST per element; `Promise.all(...)` evaluates to
a `Promise`; the subsequent `.map` property access finds no such method on
`Promise.prototype`, so calling it throws a `TypeError` inside the async
function, rejecting the returned promise.  To state this faithfully the
relevant slice of the JavaScript value universe and of its method dispatch
is embedded below. -/

/-- JavaScript runtime values the batch branch manipulates.  A settled
promise is modelled by its eventual outcome. -/
inductive JsValue where
  | undef
  | str (s : String)
  | arr (xs : List JsValue)
  | promiseOk (v : JsValue)
  | promiseErr (e : String)
  deriving Repr

/-- `v.map(f)` in JavaScript: only arrays carry a callable `map`; on every
other value the property is `undefined` and the call throws a `TypeError`. -/
def jsMapMethod (v : JsValue) (f : JsValue → JsValue) : Except String JsValue :=
  match v with
  | .arr xs => .ok (.arr (xs.map f))
  | _ => .error "TypeError: .map is not a function"

/-- `Promise.all` over already-settled values: rejects with the first
rejection, otherwise fulfills with the array of fulfillment values. -/
def promiseAll (ps : List JsValue) : JsValue :=
  match ps.findSome? (fun p => match p with | .promiseErr e => some e | _ => none) with
  | some e => .promiseErr e
  | none =>
    .promiseOk (.arr (ps.map fun p => match p with | .promiseOk v => v | other => other))

/-- The array branch of the promise revision's `createIn`.  `server`
answers each POST body with the response data or a rejection.  Returns the
requests fired by `label.map(...)` together with the outcome of the async
call (`.error` = rejected promise). -/
def createInBatch (server : String → Except String String) (repo : String)
    (labels : List Label) : List Request × Except String JsValue :=
  let path := getPath repo
  let reqs := labels.map fun l => Request.mk "POST" path (some (serializeLabel l))
  let ps := labels.map fun l =>
    match server (serializeLabel l) with
    | .ok data => JsValue.promiseOk (.str data)
    | .error e => JsValue.promiseErr e
  (reqs, jsMapMethod (promiseAll ps) id)

/-! ## `updateIn` (promise revision)

JavaScript truthiness makes both `undefined` and `""` falsy; a missing
`labelName` argument or a missing `label.name` field is modelled by `""`. -/

/-- `updateIn(repo, label, labelName)`: resolve the identifying name
(`labelName` if truthy, else `label.name`), reject with
`'Label name was not specified'` when neither is present — before issuing
any request — and otherwise PATCH the label under the resolved name.
`server` maps the PATCH path to the response body. -/
def updateIn (server : String → Except String String) (repo : String)
    (label : Label) (labelName : String) :
    List Request × Except String String :=
  let name := if labelName = "" then label.name else labelName
  if name = "" then ([], .error "Label name was not specified")
  else
    let req := Request.mk "PATCH" (getPath repo name) (some (serializeLabel label))
    ([req], server (getPath repo name))

/-! ## `getUsedLabels` (promise revision): the usage index -/

/-- The search URL `getUsedLabels` constructs for an (escaped) label name:
`https://github.com/{repo}/issues?q=label%3A"{name}"`. -/
def searchURL (repo name : String) : String :=
  "https://github.com/" ++ repo ++ "/issues?q=label%3A\"" ++ name ++ "\""

/-- `map.has(k)` for the JS `Map`, modelled as an insertion-ordered
association list. -/
def assocHas (m : List (String × String)) (k : String) : Bool :=
  m.any fun p => p.1 = k

/-- `map.get(k)`; keys are unique by construction, so first match wins. -/
def assocGet (m : List (String × String)) (k : String) : Option String :=
  (m.find? fun p => p.1 = k).map Prod.snd

/-- The body of the inner `forEach` of `getUsedLabels`: escape the label
name and `set` it to the search URL unless already present (first URL
seen per name wins). -/
def recordLabel (repo : String) (m : List (String × String)) (l : Label) :
    List (String × String) :=
  let name := escapeName l.name
  if assocHas m name then m else m ++ [(name, searchURL repo name)]

/-- The index built by `getUsedLabels` from the fetched issues. -/
def getUsedLabelsIndex (repo : String) (issues : List Issue) :
    List (String × String) :=
  issues.foldl (fun result issue => issue.labels.foldl (recordLabel repo) result) []

/-- The path `getUsedLabels` walks: all issues, open and closed. -/
def issuesPath (repo : String) : String :=
  "/repos/" ++ repo ++ "/issues?state=all"

/-- `getUsedLabels(repo)`: page through `/repos/{repo}/issues?state=all`
and fold every attached label into the index.  Returns the request log of
the walk together with the index. -/
def getUsedLabels (server : String → Option (List Issue × Option String))
    (fuel : Nat) (repo : String) :
    Option (List String × List (String × String)) :=
  (getWithPaging server fuel (issuesPath repo)).map fun r =>
    (r.1, getUsedLabelsIndex repo r.2)

/-! ## `deleteIn` (promise revision) -/

/-- The `labelName` argument of `deleteIn`: absent, a single string, or an
array of strings. -/
inductive NameArg where
  | absent
  | single (s : String)
  | several (ns : List String)
  deriving DecidableEq, Repr

/-- `deleteIn(repo, labelName)`: when `labelName` is falsy (absent or the
empty string) the destination snapshot's names are used; a single name is
wrapped into an array; the usage index is built and names found in it are
filtered out; a DELETE is issued for each remaining name.  Inputs `destLabels`
(the result of `getFrom(repo)`) and `issues` (the issues the usage-index
walk returns) stand for the two paginated fetches.  Returns the DELETE
requests, the usage index (the source returns it to the caller), and the
names actually deleted. -/
def deleteIn (destLabels : List Label) (issues : List Issue) (repo : String)
    (arg : NameArg) :
    List Request × List (String × String) × List String :=
  let names := match arg with
    | .absent => destLabels.map Label.name
    | .single s => if s = "" then destLabels.map Label.name else [s]
    | .several ns => ns
  let usedLabels := getUsedLabelsIndex repo issues
  let kept := names.filter fun n => ¬ assocHas usedLabels n
  (kept.map fun n => Request.mk "DELETE" (getPath repo n) none, usedLabels, kept)

/-! ## `copyFrom` (promise revision)

`copyFrom(labels, updateExistingLabels)` snapshots the destination's labels
into a name-keyed map, classifies each source label against it, runs the
resulting create/update operations through `Promise.all`, and filters the
`null`s (skipped labels) out of the result.  The hosting API echoes the
created/updated label, so a successful create/update yields its label. -/

/-- The per-label decision of the promise revision's `copyFrom`. -/
inductive CopyAction where
  | create (l : Label)
  | update (l : Label)
  | skip
  deriving DecidableEq, Repr

/-- The classification of one source label against the destination
snapshot's names: present & update requested → update, present otherwise →
skip (`Promise.resolve(null)`), absent → create. -/
def classifyLabel (curNames : List String) (upd : Bool) (l : Label) : CopyAction :=
  if l.name ∈ curNames then (if upd then .update l else .skip) else .create l

/-- All decisions of one `copyFrom` run, in source order. -/
def copyFromActions (dest src : List Label) (upd : Bool) : List CopyAction :=
  src.map (classifyLabel (dest.map Label.name) upd)

/-- The value each slot of the awaited `Promise.all` array holds: the
echoed label for create/update, `null` for a skip. -/
def actionResult : CopyAction → Option Label
  | .create l => some l
  | .update l => some l
  | .skip => none

/-- The request an action issues. `create` POSTs to the labels collection;
`update` goes through `update` → `updateIn` with no override, so the PATCH
path is keyed by `label.name`. -/
def actionRequest (repo : String) : CopyAction → Option Request
  | .create l => some (Request.mk "POST" (getPath repo) (some (serializeLabel l)))
  | .update l =>
    some (Request.mk "PATCH" (getPath repo l.name) (some (serializeLabel l)))
  | .skip => none

/-- The requests one `copyFrom` run fires.  All of them are created by the
synchronous `labels.map(...)` before anything is awaited, so this list does
not depend on any individual operation's success or failure. -/
def copyFromRequests (repo : String) (dest src : List Label) (upd : Bool) :
    List Request :=
  (copyFromActions dest src upd).filterMap (actionRequest repo)

/-- `labels.filter(label => label)`: the returned "applied" sequence. -/
def copyFromApplied (dest src : List Label) (upd : Bool) : List Label :=
  (copyFromActions dest src upd).filterMap actionResult

/-- Effect of one action on the destination repository's label list:
create appends, update replaces every label carrying the identifying
name, skip leaves the repository alone. -/
def applyAction (d : List Label) : CopyAction → List Label
  | .create l => d ++ [l]
  | .update l => d.map fun x => if x.name = l.name then l else x
  | .skip => d

/-- The destination's label list after one `copyFrom` run.  The
operations target pairwise independent resources, so their concurrent
execution is determinized as a left fold. -/
def copyFromState (dest src : List Label) (upd : Bool) : List Label :=
  (copyFromActions dest src upd).foldl applyAction dest

/-- The destination's label names (the key set of the snapshot `Map`). -/
def namesOf (d : List Label) : List String :=
  d.map Label.name

/-- Number of create decisions in a run's action list. -/
def countCreates (acts : List CopyAction) : Nat :=
  (acts.filter fun a => match a with | .create _ => true | _ => false).length

/-! ## `copyFrom` (callback revision)

The callback revision classifies with the same conditions but executes the
operations with `metasync.series`: strictly sequentially, stopping at the
first error.  When the name exists and `updateExistingLabels` is false,
neither branch invokes the item callback, so the series never advances ——
the run stalls. -/

/-- The per-label decision of the callback revision. -/
inductive CbAction where
  | create (l : Label)
  | update (l : Label)
  | stall
  deriving DecidableEq, Repr

/-- Classification in the callback revision's `copyFrom` (same membership
test and update flag as the promise revision). -/
def classifyCb (curNames : List String) (upd : Bool) (l : Label) : CbAction :=
  if l.name ∈ curNames then (if upd then .update l else .stall) else .create l

/-- How the promise revision's decisions read in the callback revision:
the promise revision resolves a skipped label with `null`, the callback
revision never calls back for it. -/
def cbOfAction : CopyAction → CbAction
  | .create l => .create l
  | .update l => .update l
  | .skip => .stall

/-- Outcome of the callback revision's series. -/
inductive CbOutcome where
  | ok
  | err (e : String)
  | stalled
  deriving DecidableEq, Repr

/-- The `metasync.series` loop of the callback revision's `copyFrom`:
process source labels in order; a failing operation ends the series with
its error; a label that is present with `updateExistingLabels` false
invokes no callback and the series stalls.  Returns the requests issued
and the outcome. -/
def copyFromCb (oracle : Request → Except String String) (repo : String)
    (curNames : List String) (upd : Bool) :
    List Label → List Request × CbOutcome
  | [] => ([], .ok)
  | l :: rest =>
    match classifyCb curNames upd l with
    | .create lb =>
      match oracle (Request.mk "POST" (getPath repo) (some (serializeLabel lb))) with
      | .ok _ =>
        (Request.mk "POST" (getPath repo) (some (serializeLabel lb)) ::
            (copyFromCb oracle repo curNames upd rest).1,
          (copyFromCb oracle repo curNames upd rest).2)
      | .error e =>
        ([Request.mk "POST" (getPath repo) (some (serializeLabel lb))], .err e)
    | .update lb =>
      match oracle (Request.mk "PATCH" (getPath repo lb.name)
          (some (serializeLabel lb))) with
      | .ok _ =>
        (Request.mk "PATCH" (getPath repo lb.name) (some (serializeLabel lb)) ::
            (copyFromCb oracle repo curNames upd rest).1,
          (copyFromCb oracle repo curNames upd rest).2)
      | .error e =>
        ([Request.mk "PATCH" (getPath repo lb.name) (some (serializeLabel lb))],
          .err e)
    | .stall => ([], .stalled)

/-! ## Concrete scenarios used by the theorems below -/

/-- Link header of page 1: a `next` relation to page 2. -/
def hdr1 : String :=
  "<https://api.github.com/l?page=2&per_page=100>; rel=\"next\""

/-- Link header of page 2: `next` to page 3, plus a `first` relation. -/
def hdr2 : String :=
  "<https://api.github.com/l?page=3&per_page=100>; rel=\"next\", " ++
    "<https://api.github.com/l?per_page=100>; rel=\"first\""

/-- Link header of page 3: only a `prev` relation — no `next`, so the walk
must stop here. -/
def hdr3 : String :=
  "<https://api.github.com/l?page=2&per_page=100>; rel=\"prev\""

/-- URL of page 2 as supplied by `hdr1`. -/
def url2 : String := "https://api.github.com/l?page=2&per_page=100"

/-- URL of page 3 as supplied by `hdr2`. -/
def url3 : String := "https://api.github.com/l?page=3&per_page=100"

/-- A server serving three pages `p1`, `p2`, `p3` linked by `next`
relations. -/
def server3 (p1 p2 p3 : List Nat) (path : String) :
    Option (List Nat × Option String) :=
  if path = "/l?per_page=100" then some (p1, some hdr1)
  else if path = url2 then some (p2, some hdr2)
  else if path = url3 then some (p3, some hdr3)
  else none

/-- A batch of five labels for the error-aggregation scenario. -/
def batch5 : List Label :=
  ["l1", "l2", "l3", "l4", "l5"].map fun n => Label.mk n "cccccc" none

/-- A server failing exactly the creates of `l2` and `l4`. -/
def batch5Server (body : String) : Except String String :=
  if body = serializeLabel (Label.mk "l2" "cccccc" none) ∨
      body = serializeLabel (Label.mk "l4" "cccccc" none) then
    .error "Validation Failed"
  else .ok "\x7b\x7d"

/-- `true` on the responses `batch5Server` accepts. -/
def isOkResponse : Except String String → Bool
  | .ok _ => true
  | .error _ => false

/-- First source label of the two-revision comparison scenario. -/
def alphaL : Label := Label.mk "alpha" "111111" none

/-- Second source label of the two-revision comparison scenario. -/
def betaL : Label := Label.mk "beta" "222222" none

/-- A transport that rejects the create of `alphaL` and accepts anything
else. -/
def alphaFailOracle (req : Request) : Except String String :=
  if req.body = some (serializeLabel alphaL) then .error "boom"
  else .ok "\x7b\x7d"

/-- A one-page issue listing for `o/r`: a single issue labeled `bug`. -/
def issueServer1 (path : String) : Option (List Issue × Option String) :=
  if path = "/repos/o/r/issues?state=all&per_page=100" then
    some ([Issue.mk [Label.mk "bug" "d73a4a" none]], none)
  else none

/-! ## Theorems -/

/-- `Promise.all(...)` evaluates to a promise, and a promise has no `map`
method: the property access yields `undefined` and the call site throws. -/
theorem jsMapMethod_promiseAll (ps : List JsValue) (f : JsValue → JsValue) :
    jsMapMethod (promiseAll ps) f =
      .error "TypeError: .map is not a function" := by
  unfold promiseAll
  cases ps.findSome? fun p => match p with | .promiseErr e => some e | _ => none <;>
    simp [jsMapMethod]

/-- **C6.** Against a server serving three pages of 100, 100 and 37 items
chained by `rel="next"` link relations, `[getWithPaging]` issues exactly the
three requests (the first carrying the appended `per_page=100`, the others
the URLs taken from the `next` relations, which also carry `per_page=100`),
stops at the page without a `next` relation, and returns the 237 items in
server order across the page boundaries. -/
theorem getWithPaging_three_pages (p1 p2 p3 : List Nat)
    (h1 : p1.length = 100) (h2 : p2.length = 100) (h3 : p3.length = 37) :
    getWithPaging (server3 p1 p2 p3) 5 "/l" =
      some (["/l?per_page=100", url2, url3], p1 ++ (p2 ++ p3)) ∧
    (p1 ++ (p2 ++ p3)).length = 237 := by
  constructor
  · have e0 : (if jsIncludes "/l" '?' then "&" else "?") = "?" := by decide
    have n1 : jsMapGet (parseLinkHeader hdr1) "next" = some url2 := by decide
    have n2 : jsMapGet (parseLinkHeader hdr2) "next" = some url3 := by decide
    have n3 : jsMapGet (parseLinkHeader hdr3) "next" = none := by decide
    have s1 : server3 p1 p2 p3 "/l?per_page=100" = some (p1, some hdr1) := by
      unfold server3; rw [if_pos rfl]
    have s2 : server3 p1 p2 p3 url2 = some (p2, some hdr2) := by
      unfold server3; rw [if_neg (by decide), if_pos rfl]
    have s3 : server3 p1 p2 p3 url3 = some (p3, some hdr3) := by
      unfold server3; rw [if_neg (by decide), if_neg (by decide), if_pos rfl]
    unfold getWithPaging
    rw [e0]
    show getWithPagingGo (server3 p1 p2 p3) (4 + 1) "/l?per_page=100" = _
    rw [getWithPagingGo, s1]
    simp only [n1]
    rw [if_neg (by decide)]
    show (match getWithPagingGo (server3 p1 p2 p3) (3 + 1) url2 with
      | none => none
      | some (log, acc) => some ("/l?per_page=100" :: log, p1 ++ acc)) = _
    rw [getWithPagingGo, s2]
    simp only [n2]
    rw [if_neg (by decide)]
    rw [getWithPagingGo, s3]
    simp only [n3]
  · simp [h1, h2, h3]

/-- Witness for `getWithPaging_three_pages` at concrete pages. -/
theorem getWithPaging_three_pages_witness :
    (List.range 100).length = 100 ∧ (List.range 37).length = 37 ∧
    (getWithPaging (server3 (List.range 100) (List.range 100) (List.range 37))
        5 "/l" =
      some (["/l?per_page=100", url2, url3],
        List.range 100 ++ (List.range 100 ++ List.range 37)) ∧
      (List.range 100 ++ (List.range 100 ++ List.range 37)).length = 237) :=
  ⟨by simp, by simp,
    getWithPaging_three_pages (List.range 100) (List.range 100) (List.range 37)
      (by simp) (by simp) (by simp)⟩

/-- **C3.** The array branch of the promise revision's `createIn` fires one
POST per element but then calls `.map` on the `Promise` returned by
`Promise.all`, so for every server behavior the call rejects with a
`TypeError` and can never return the sequence of created labels. -/
theorem createInBatch_always_rejects (server : String → Except String String)
    (repo : String) (labels : List Label) (h : labels ≠ []) :
    (createInBatch server repo labels).1.length = labels.length ∧
    (createInBatch server repo labels).2 =
      .error "TypeError: .map is not a function" := by
  constructor
  · simp [createInBatch]
  · exact jsMapMethod_promiseAll _ _

/-- Witness for `createInBatch_always_rejects` on a one-element batch. -/
theorem createInBatch_always_rejects_witness :
    ([Label.mk "bug" "d73a4a" none] ≠ ([] : List Label)) ∧
    ((createInBatch (fun _ => .ok "\x7b\x7d") "o/r"
        [Label.mk "bug" "d73a4a" none]).1.length = 1 ∧
      (createInBatch (fun _ => .ok "\x7b\x7d") "o/r"
        [Label.mk "bug" "d73a4a" none]).2 =
        .error "TypeError: .map is not a function") :=
  ⟨by decide,
    createInBatch_always_rejects (fun _ => .ok "\x7b\x7d") "o/r"
      [Label.mk "bug" "d73a4a" none] (by decide)⟩

/-- **C2.** Evaluation of the batch-create at the spec's error-aggregation
scenario — a batch of five creates of which the server fails two: all five
POSTs are fired, yet the call rejects with a `TypeError` (the `.map`-on-a-
promise slip), so the three successful members are never returned and no
`PartialBatchFailure` carrying them can be observed. -/
theorem createInBatch_five_two_failures :
    (createInBatch batch5Server "o/r" batch5).1.length = 5 ∧
    (createInBatch batch5Server "o/r" batch5).2 =
      .error "TypeError: .map is not a function" ∧
    (batch5.filter fun l => isOkResponse (batch5Server (serializeLabel l))).length
      = 3 := by
  refine ⟨by decide, ?_, by decide⟩
  exact jsMapMethod_promiseAll
    (batch5.map fun l =>
      match batch5Server (serializeLabel l) with
      | .ok data => JsValue.promiseOk (.str data)
      | .error e => JsValue.promiseErr e) id

/-- **C7.** `updateIn` resolves the identifying name as the explicit
`labelName` argument when given, else `label.name`; when neither is present
it rejects with `'Label name was not specified'` without issuing any
request, and otherwise PATCHes the label under the resolved name. -/
theorem updateIn_name_resolution (server : String → Except String String)
    (repo : String) (label : Label) (labelName : String) :
    (labelName = "" ∧ label.name = "" →
      updateIn server repo label labelName =
        ([], .error "Label name was not specified")) ∧
    (labelName ≠ "" →
      (updateIn server repo label labelName).1 =
        [Request.mk "PATCH" (getPath repo labelName)
          (some (serializeLabel label))]) ∧
    (labelName = "" → label.name ≠ "" →
      (updateIn server repo label labelName).1 =
        [Request.mk "PATCH" (getPath repo label.name)
          (some (serializeLabel label))]) := by
  refine ⟨fun ⟨hl, hn⟩ => ?_, fun hl => ?_, fun hl hn => ?_⟩
  · simp [updateIn, hl, hn]
  · simp [updateIn, hl]
  · simp [updateIn, hl, hn]

/-- Witness for `updateIn_name_resolution`: validation failure with no
request when both names are missing, override key when given, `label.name`
key otherwise. -/
theorem updateIn_name_resolution_witness :
    (updateIn (fun _ => .ok "\x7b\x7d") "o/r" (Label.mk "" "f29513" none) "" =
      ([], .error "Label name was not specified")) ∧
    ((updateIn (fun _ => .ok "\x7b\x7d") "o/r" (Label.mk "bug" "f29513" none)
        "old name").1 =
      [Request.mk "PATCH" (getPath "o/r" "old name")
        (some (serializeLabel (Label.mk "bug" "f29513" none)))]) ∧
    ((updateIn (fun _ => .ok "\x7b\x7d") "o/r" (Label.mk "bug" "f29513" none)
        "").1 =
      [Request.mk "PATCH" (getPath "o/r" "bug")
        (some (serializeLabel (Label.mk "bug" "f29513" none)))]) :=
  ⟨(updateIn_name_resolution (fun _ => .ok "\x7b\x7d") "o/r"
      (Label.mk "" "f29513" none) "").1 ⟨rfl, rfl⟩,
    (updateIn_name_resolution (fun _ => .ok "\x7b\x7d") "o/r"
      (Label.mk "bug" "f29513" none) "old name").2.1 (by decide),
    (updateIn_name_resolution (fun _ => .ok "\x7b\x7d") "o/r"
      (Label.mk "bug" "f29513" none) "").2.2 rfl (by decide)⟩

/-- **C1.** Failing input for the usage-index protection: the destination
holds the label `a b`, which is attached to an issue.  `getUsedLabels` keys
the usage index by the percent-encoded name `a%20b`, while `deleteIn`
filters candidate names by their raw spelling, so the delete-all run issues
`DELETE /repos/o/r/labels/a%20b` for the in-use label instead of protecting
it. -/
theorem deleteIn_deletes_used_label :
    escapeName "a b" = "a%20b" ∧
    getUsedLabelsIndex "o/r" [Issue.mk [Label.mk "a b" "d73a4a" none]] =
      [("a%20b", searchURL "o/r" "a%20b")] ∧
    deleteIn [Label.mk "a b" "d73a4a" none]
        [Issue.mk [Label.mk "a b" "d73a4a" none]] "o/r" NameArg.absent =
      ([Request.mk "DELETE" "/repos/o/r/labels/a%20b" none],
        [("a%20b", searchURL "o/r" "a%20b")], ["a b"]) := by
  refine ⟨by decide, by decide, by decide⟩

/-- Folding a list of pure create decisions appends the created labels in
order. -/
theorem foldl_applyAction_create (src : List Label) (d : List Label) :
    List.foldl applyAction d (src.map CopyAction.create) = d ++ src := by
  induction src generalizing d with
  | nil => simp
  | cons l rest ih =>
    simp only [List.map_cons, List.foldl_cons, applyAction, ih]
    simp

/-- Under a disjoint source every label classifies as a create. -/
theorem classify_of_disjoint (dest src : List Label) (upd : Bool)
    (hdisj : ∀ a ∈ src, ∀ b ∈ dest, a.name ≠ b.name) :
    ∀ l ∈ src, classifyLabel (dest.map Label.name) upd l = .create l := by
  intro l hl
  have hnot : l.name ∉ dest.map Label.name := by
    intro hmem
    obtain ⟨b, hb, hbe⟩ := List.mem_map.mp hmem
    exact hdisj l hl b hb hbe.symm
  simp [classifyLabel, hnot]

/-- **C4.** With disjoint source and destination names, a
`copyFrom(labels, false)` run classifies every source label as a create,
issues exactly one POST per source label and no PATCH or DELETE, returns
the source sequence itself as the applied labels, and leaves the
destination's original members unchanged (the new state is the old one
with the created labels appended). -/
theorem copyFrom_disjoint_creates_all (repo : String) (dest src : List Label)
    (hdisj : ∀ a ∈ src, ∀ b ∈ dest, a.name ≠ b.name) :
    copyFromActions dest src false = src.map CopyAction.create ∧
    copyFromRequests repo dest src false =
      src.map (fun l =>
        Request.mk "POST" (getPath repo) (some (serializeLabel l))) ∧
    copyFromApplied dest src false = src ∧
    copyFromState dest src false = dest ++ src := by
  have hacts : copyFromActions dest src false = src.map CopyAction.create :=
    List.map_congr_left (classify_of_disjoint dest src false hdisj)
  refine ⟨hacts, ?_, ?_, ?_⟩
  · rw [copyFromRequests, hacts]
    clear hacts hdisj
    induction src with
    | nil => rfl
    | cons l rest ih => simpa [actionRequest] using ih
  · rw [copyFromApplied, hacts]
    clear hacts hdisj
    induction src with
    | nil => rfl
    | cons l rest ih => simpa [actionResult] using ih
  · rw [copyFromState, hacts, foldl_applyAction_create]

/-- Witness for `copyFrom_disjoint_creates_all`: source `bug`/`docs`
against a destination holding only `chore`. -/
theorem copyFrom_disjoint_creates_all_witness :
    (∀ a ∈ [Label.mk "bug" "d73a4a" none, Label.mk "docs" "0075ca" none],
      ∀ b ∈ [Label.mk "chore" "ededed" none], a.name ≠ b.name) ∧
    (copyFromApplied [Label.mk "chore" "ededed" none]
        [Label.mk "bug" "d73a4a" none, Label.mk "docs" "0075ca" none] false =
      [Label.mk "bug" "d73a4a" none, Label.mk "docs" "0075ca" none] ∧
      copyFromState [Label.mk "chore" "ededed" none]
        [Label.mk "bug" "d73a4a" none, Label.mk "docs" "0075ca" none] false =
        [Label.mk "chore" "ededed" none] ++
          [Label.mk "bug" "d73a4a" none, Label.mk "docs" "0075ca" none]) :=
  ⟨by decide,
    (copyFrom_disjoint_creates_all "o/r" [Label.mk "chore" "ededed" none]
      [Label.mk "bug" "d73a4a" none, Label.mk "docs" "0075ca" none]
      (by decide)).2.2⟩

/-- After an update of `lsrc`, every label carrying `lsrc`'s name is
`lsrc`. -/
theorem applyAction_update_pins (d : List Label) (lsrc : Label) :
    ∀ x ∈ applyAction d (.update lsrc), x.name = lsrc.name → x = lsrc := by
  intro x hx hname
  simp only [applyAction, List.mem_map] at hx
  obtain ⟨y, _, hy⟩ := hx
  by_cases hc : y.name = lsrc.name
  · simpa [hc] using hy.symm
  · rw [← hy] at hname ⊢
    simp only [if_neg hc] at hname ⊢
    exact absurd hname hc

/-- An action that neither creates a label named `N` nor updates anything
named `N` other than `lsrc` preserves "every `N`-named label is `lsrc`". -/
theorem applyAction_preserves_pin (N : String) (lsrc : Label)
    (d : List Label) (a : CopyAction)
    (hno : (∀ l, a = .create l → l.name ≠ N) ∧
      (∀ l, a = .update l → l.name = N → l = lsrc))
    (hname : lsrc.name = N)
    (hd : ∀ x ∈ d, x.name = N → x = lsrc) :
    ∀ x ∈ applyAction d a, x.name = N → x = lsrc := by
  intro x hx hxN
  cases a with
  | create l =>
    rcases List.mem_append.mp hx with hxd | hxl
    · exact hd x hxd hxN
    · have : x = l := by simpa using hxl
      exact absurd (this ▸ hxN) (hno.1 l rfl)
  | update l =>
    simp only [applyAction, List.mem_map] at hx
    obtain ⟨y, hyd, hy⟩ := hx
    by_cases hc : y.name = l.name
    · have hxl : x = l := by simpa [hc] using hy.symm
      exact (hxl ▸ hno.2 l rfl) (hxl ▸ hxN)
    · have hxy : x = y := by simpa [hc] using hy.symm
      exact hd x (hxy ▸ hyd) hxN
  | skip => exact hd x hx hxN

/-- Folding actions that are all harmless for `N` keeps every `N`-named
label pinned to `lsrc`. -/
theorem foldl_preserves_pin (N : String) (lsrc : Label)
    (hname : lsrc.name = N) :
    ∀ (acts : List CopyAction) (d : List Label),
    (∀ a ∈ acts, (∀ l, a = .create l → l.name ≠ N) ∧
      (∀ l, a = .update l → l.name = N → l = lsrc)) →
    (∀ x ∈ d, x.name = N → x = lsrc) →
    ∀ x ∈ List.foldl applyAction d acts, x.name = N → x = lsrc := by
  intro acts
  induction acts with
  | nil => intro d _ hd; simpa using hd
  | cons a rest ih =>
    intro d hok hd
    exact ih (applyAction d a) (fun b hb => hok b (List.mem_cons_of_mem a hb))
      (applyAction_preserves_pin N lsrc d a (hok a (List.mem_cons_self a rest)) hname hd)

/-- Once `update lsrc` occurs among harmless actions, the fold's result has
every `N`-named label equal to `lsrc`. -/
theorem foldl_update_pins (N : String) (lsrc : Label) (hname : lsrc.name = N) :
    ∀ (acts : List CopyAction) (d : List Label),
    (∀ a ∈ acts, (∀ l, a = .create l → l.name ≠ N) ∧
      (∀ l, a = .update l → l.name = N → l = lsrc)) →
    CopyAction.update lsrc ∈ acts →
    ∀ x ∈ List.foldl applyAction d acts, x.name = N → x = lsrc := by
  intro acts
  induction acts with
  | nil => intro d _ hmem; cases hmem
  | cons a rest ih =>
    intro d hok hmem
    rcases List.mem_cons.mp hmem with heq | hrest
    · subst heq
      exact foldl_preserves_pin N lsrc hname rest (applyAction d (.update lsrc))
        (fun b hb => hok b (List.mem_cons_of_mem _ hb))
        (fun x hx => applyAction_update_pins d lsrc x hx ∘ (hname ▸ id))
    · exact ih (applyAction d a) (fun b hb => hok b (List.mem_cons_of_mem a hb))
        hrest

/-- Folding actions that contain no update leaves the initial labels as a
prefix: the destination's original members are untouched. -/
theorem foldl_no_update_prefix :
    ∀ (acts : List CopyAction) (d : List Label),
    (∀ a ∈ acts, ∀ l, a ≠ .update l) →
    ∃ rest, List.foldl applyAction d acts = d ++ rest := by
  intro acts
  induction acts with
  | nil => intro d _; exact ⟨[], by simp⟩
  | cons a rest ih =>
    intro d hno
    cases a with
    | create l =>
      obtain ⟨r, hr⟩ := ih (d ++ [l]) fun b hb => hno b (List.mem_cons_of_mem _ hb)
      exact ⟨[l] ++ r, by simpa [applyAction] using hr⟩
    | update l => exact absurd rfl (hno _ (List.mem_cons_self _ rest) l)
    | skip =>
      obtain ⟨r, hr⟩ := ih d fun b hb => hno b (List.mem_cons_of_mem _ hb)
      exact ⟨r, by simpa [applyAction] using hr⟩

/-- **C5.** When source and destination share a name `N` (with differing
colors): under `updateExisting=true` the run classifies the source label as
an update whose PATCH is keyed by `N` (the source label's name) and carries
the source label's content, and in the resulting destination every label
named `N` equals the source label (its color is overwritten); under
`updateExisting=false` the source label classifies as a no-op, the applied
sequence contains nothing named `N`, and the destination's members are left
untouched (the new state extends the old one on the right). -/
theorem copyFrom_shared_name_policy (repo : String) (dest src : List Label)
    (lsrc ldst : Label) (hs : lsrc ∈ src) (hd : ldst ∈ dest)
    (hn : ldst.name = lsrc.name) (hc : ldst.color ≠ lsrc.color)
    (huniq : ∀ l ∈ src, l.name = lsrc.name → l = lsrc) :
    classifyLabel (dest.map Label.name) true lsrc = .update lsrc ∧
    actionRequest repo (classifyLabel (dest.map Label.name) true lsrc) =
      some (Request.mk "PATCH" (getPath repo lsrc.name)
        (some (serializeLabel lsrc))) ∧
    (∀ x ∈ copyFromState dest src true, x.name = lsrc.name → x = lsrc) ∧
    classifyLabel (dest.map Label.name) false lsrc = .skip ∧
    (∀ x ∈ copyFromApplied dest src false, x.name ≠ lsrc.name) ∧
    (∃ rest, copyFromState dest src false = dest ++ rest) := by
  have hmem : lsrc.name ∈ dest.map Label.name :=
    hn ▸ List.mem_map_of_mem Label.name hd
  have hclassT : classifyLabel (dest.map Label.name) true lsrc = .update lsrc := by
    simp [classifyLabel, hmem]
  have hok : ∀ a ∈ copyFromActions dest src true,
      (∀ l, a = .create l → l.name ≠ lsrc.name) ∧
      (∀ l, a = .update l → l.name = lsrc.name → l = lsrc) := by
    intro a ha
    obtain ⟨l, hl, hcl⟩ := List.mem_map.mp ha
    by_cases hi : l.name ∈ dest.map Label.name
    · rw [classifyLabel, if_pos hi, if_pos rfl] at hcl
      constructor
      · intro l' hcr
        rw [← hcl] at hcr
        cases hcr
      · intro l' hup hnm
        rw [← hcl] at hup
        cases hup
        exact huniq l hl hnm
    · rw [classifyLabel, if_neg hi] at hcl
      constructor
      · intro l' hcr
        rw [← hcl] at hcr
        cases hcr
        exact fun hEq => hi (hEq ▸ hmem)
      · intro l' hup
        rw [← hcl] at hup
        cases hup
  refine ⟨hclassT, by rw [hclassT]; rfl, ?_, ?_, ?_, ?_⟩
  · exact foldl_update_pins lsrc.name lsrc rfl (copyFromActions dest src true)
      dest hok
      (List.mem_map.mpr ⟨lsrc, hs, hclassT⟩)
  · simp [classifyLabel, hmem]
  · intro x hx
    obtain ⟨a, ha, har⟩ := List.mem_filterMap.mp hx
    obtain ⟨l, hl, hcl⟩ := List.mem_map.mp ha
    by_cases hi : l.name ∈ dest.map Label.name
    · rw [classifyLabel, if_pos hi] at hcl
      simp only [Bool.false_eq_true, if_false] at hcl
      rw [← hcl] at har
      cases har
    · rw [classifyLabel, if_neg hi] at hcl
      rw [← hcl] at har
      simp only [actionResult, Option.some.injEq] at har
      subst har
      intro hEq
      exact hi (by rw [hEq]; exact hmem)
  · refine foldl_no_update_prefix (copyFromActions dest src false) dest ?_
    intro a ha l
    obtain ⟨l', _, hcl⟩ := List.mem_map.mp ha
    by_cases hi : l'.name ∈ dest.map Label.name
    · rw [classifyLabel, if_pos hi] at hcl
      simp only [Bool.false_eq_true, if_false] at hcl
      rw [← hcl]
      intro hEq
      cases hEq
    · rw [classifyLabel, if_neg hi] at hcl
      rw [← hcl]
      intro hEq
      cases hEq

/-- Witness for `copyFrom_shared_name_policy`: source `bug d73a4a` against
a destination `bug ff0000`. -/
theorem copyFrom_shared_name_policy_witness :
    ((Label.mk "bug" "ff0000" none).name = (Label.mk "bug" "d73a4a" none).name ∧
      (Label.mk "bug" "ff0000" none).color ≠ (Label.mk "bug" "d73a4a" none).color) ∧
    ((∀ x ∈ copyFromState [Label.mk "bug" "ff0000" none]
        [Label.mk "bug" "d73a4a" none] true,
        x.name = (Label.mk "bug" "d73a4a" none).name →
          x = Label.mk "bug" "d73a4a" none) ∧
      (∃ rest, copyFromState [Label.mk "bug" "ff0000" none]
        [Label.mk "bug" "d73a4a" none] false =
          [Label.mk "bug" "ff0000" none] ++ rest)) := by
  have h := copyFrom_shared_name_policy "o/r" [Label.mk "bug" "ff0000" none]
    [Label.mk "bug" "d73a4a" none] (Label.mk "bug" "d73a4a" none)
    (Label.mk "bug" "ff0000" none) (by decide) (by decide) (by decide)
    (by decide) (by decide)
  exact ⟨⟨rfl, by decide⟩, h.2.2.1, h.2.2.2.2.2⟩

/-- Every action preserves the presence of a destination name: creates
append, updates replace a label by one with the same identifying name,
skips do nothing. -/
theorem mem_namesOf_applyAction (d : List Label) (a : CopyAction) (n : String)
    (h : n ∈ namesOf d) : n ∈ namesOf (applyAction d a) := by
  cases a with
  | create l => simp only [namesOf, applyAction, List.map_append]; exact List.mem_append_left _ h
  | update l =>
    simp only [namesOf, List.mem_map] at h ⊢
    obtain ⟨x, hx, hxe⟩ := h
    by_cases hc : x.name = l.name
    · refine ⟨l, ?_, ?_⟩
      · simp only [applyAction, List.mem_map]
        exact ⟨x, hx, by rw [if_pos hc]⟩
      · rw [← hxe, hc]
    · refine ⟨x, ?_, hxe⟩
      simp only [applyAction, List.mem_map]
      exact ⟨x, hx, by rw [if_neg hc]⟩
  | skip => exact h

/-- A name once present stays present along a whole fold. -/
theorem mem_namesOf_foldl (n : String) :
    ∀ (acts : List CopyAction) (d : List Label), n ∈ namesOf d →
      n ∈ namesOf (List.foldl applyAction d acts) := by
  intro acts
  induction acts with
  | nil => intro d h; simpa using h
  | cons a rest ih =>
    intro d h
    exact ih (applyAction d a) (mem_namesOf_applyAction d a n h)

/-- A created label's name is present after the fold. -/
theorem create_mem_namesOf_foldl (l : Label) :
    ∀ (acts : List CopyAction) (d : List Label), CopyAction.create l ∈ acts →
      l.name ∈ namesOf (List.foldl applyAction d acts) := by
  intro acts
  induction acts with
  | nil => intro d h; cases h
  | cons a rest ih =>
    intro d h
    rcases List.mem_cons.mp h with heq | hrest
    · subst heq
      refine mem_namesOf_foldl l.name rest (applyAction d (.create l)) ?_
      simp [namesOf, applyAction]
    · exact ih (applyAction d a) hrest

/-- After one `copyFrom` run every source name is present in the
destination: it was either created or already there (updates preserve
names). -/
theorem src_name_mem_state (dest src : List Label) (upd : Bool) :
    ∀ l ∈ src, l.name ∈ namesOf (copyFromState dest src upd) := by
  intro l hl
  by_cases hi : l.name ∈ dest.map Label.name
  · exact mem_namesOf_foldl l.name (copyFromActions dest src upd) dest hi
  · refine create_mem_namesOf_foldl l (copyFromActions dest src upd) dest ?_
    refine List.mem_map.mpr ⟨l, hl, ?_⟩
    rw [classifyLabel, if_neg hi]

/-- **C9.** Reconciliation converges: after one `copyFrom(src, true)` run
every source name exists in the destination, so a second run classifies no
label as a create; and once the destination already agrees with the source
(every source label present, every same-named destination label equal to
it), a further run with `updateExisting=true` leaves the destination
exactly as it is — a fixed point. -/
theorem copyFrom_fixed_point (dest src : List Label) :
    countCreates
      (copyFromActions (copyFromState dest src true) src true) = 0 ∧
    (∀ l ∈ src, l.name ∈ namesOf (copyFromState dest src true)) ∧
    ((∀ l ∈ src, l ∈ dest ∧ ∀ x ∈ dest, x.name = l.name → x = l) →
      copyFromState dest src true = dest) := by
  refine ⟨?_, src_name_mem_state dest src true, ?_⟩
  · rw [countCreates, List.length_eq_zero]
    rw [List.filter_eq_nil_iff]
    intro a ha
    obtain ⟨l, hl, hcl⟩ := List.mem_map.mp ha
    have hmem : l.name ∈ (copyFromState dest src true).map Label.name :=
      src_name_mem_state dest src true l hl
    rw [classifyLabel, if_pos hmem, if_pos rfl] at hcl
    rw [← hcl]
    simp
  · intro hfix
    rw [copyFromState, copyFromActions]
    have : ∀ s : List Label, (∀ l ∈ s, l ∈ dest ∧ ∀ x ∈ dest, x.name = l.name → x = l) →
        List.foldl applyAction dest
          (s.map (classifyLabel (dest.map Label.name) true)) = dest := by
      intro s
      induction s with
      | nil => intro _; rfl
      | cons l rest ih =>
        intro hall
        have hl := hall l (List.mem_cons_self l rest)
        have hmem : l.name ∈ dest.map Label.name :=
          List.mem_map_of_mem Label.name hl.1
        have hstep : applyAction dest (classifyLabel (dest.map Label.name) true l)
            = dest := by
          rw [classifyLabel, if_pos hmem, if_pos rfl]
          show dest.map (fun x => if x.name = l.name then l else x) = dest
          have : ∀ x ∈ dest, (if x.name = l.name then l else x) = x := by
            intro x hx
            by_cases hc : x.name = l.name
            · rw [if_pos hc, (hl.2 x hx hc)]
            · rw [if_neg hc]
          rw [List.map_congr_left this]
          exact List.map_id dest
        simp only [List.map_cons, List.foldl_cons, hstep]
        exact ih fun b hb => hall b (List.mem_cons_of_mem l hb)
    exact this src hfix

/-- Witness for `copyFrom_fixed_point`: source `bug d73a4a` against a
matching destination. -/
theorem copyFrom_fixed_point_witness :
    countCreates
      (copyFromActions
        (copyFromState [Label.mk "bug" "d73a4a" none]
          [Label.mk "bug" "d73a4a" none] true)
        [Label.mk "bug" "d73a4a" none] true) = 0 ∧
    copyFromState [Label.mk "bug" "d73a4a" none]
      [Label.mk "bug" "d73a4a" none] true = [Label.mk "bug" "d73a4a" none] :=
  ⟨(copyFrom_fixed_point [Label.mk "bug" "d73a4a" none]
      [Label.mk "bug" "d73a4a" none]).1,
    (copyFrom_fixed_point [Label.mk "bug" "d73a4a" none]
      [Label.mk "bug" "d73a4a" none]).2.2 (by decide)⟩

/-- **C10 (amended).** The two revisions agree on the per-label
create/update/no-op classification — the callback revision's "no-op"
being a series item whose callback is never invoked — but they are not
execution-equivalent: the callback revision (`metasync.series`) issues its
requests strictly sequentially and stops at the first failure or no-op, so
its request log is always an initial segment of the promise revision's
(`Promise.all`) request list, which is fired in full before any result is
awaited. -/
theorem copyFrom_revisions_classification (oracle : Request → Except String String)
    (repo : String) (dest src : List Label) (upd : Bool) :
    (∀ (curNames : List String) (u : Bool) (l : Label),
      classifyCb curNames u l = cbOfAction (classifyLabel curNames u l)) ∧
    (∃ rest, copyFromRequests repo dest src upd =
      (copyFromCb oracle repo (dest.map Label.name) upd src).1 ++ rest) := by
  constructor
  · intro curNames u l
    rw [classifyLabel, classifyCb]
    by_cases hi : l.name ∈ curNames
    · rw [if_pos hi, if_pos hi]
      cases u <;> rfl
    · rw [if_neg hi, if_neg hi]
      rfl
  · induction src with
    | nil => exact ⟨[], rfl⟩
    | cons l rest ih =>
      obtain ⟨r, hr⟩ := ih
      have hreq : copyFromRequests repo dest (l :: rest) upd =
          (actionRequest repo
            (classifyLabel (dest.map Label.name) upd l)).toList ++
            copyFromRequests repo dest rest upd := by
        rw [copyFromRequests, copyFromActions, List.map_cons,
          List.filterMap_cons]
        cases actionRequest repo (classifyLabel (dest.map Label.name) upd l) <;>
          simp [copyFromRequests, copyFromActions]
      rw [hreq]
      by_cases hi : l.name ∈ dest.map Label.name
      · cases hu : upd with
        | false =>
          subst hu
          have hcb : classifyCb (dest.map Label.name) false l = .stall := by
            rw [classifyCb, if_pos hi]
            rfl
          have hstep : copyFromCb oracle repo (dest.map Label.name) false
              (l :: rest) = ([], .stalled) := by
            rw [copyFromCb]
            simp only [hcb]
          refine ⟨(actionRequest repo
            (classifyLabel (dest.map Label.name) false l)).toList ++
              copyFromRequests repo dest rest false, ?_⟩
          rw [hstep]
          rfl
        | true =>
          subst hu
          have hcb : classifyCb (dest.map Label.name) true l = .update l := by
            rw [classifyCb, if_pos hi, if_pos rfl]
          have hcl : classifyLabel (dest.map Label.name) true l = .update l := by
            rw [classifyLabel, if_pos hi, if_pos rfl]
          rw [hcl]
          cases horacle : oracle (Request.mk "PATCH" (getPath repo l.name)
              (some (serializeLabel l))) with
          | ok v =>
            have hstep : copyFromCb oracle repo (dest.map Label.name) true
                (l :: rest) =
                (Request.mk "PATCH" (getPath repo l.name)
                    (some (serializeLabel l)) ::
                  (copyFromCb oracle repo (dest.map Label.name) true rest).1,
                  (copyFromCb oracle repo (dest.map Label.name) true rest).2) := by
              rw [copyFromCb]
              simp only [hcb, horacle]
            exact ⟨r, by rw [hstep]; simp [actionRequest, hr]⟩
          | error e =>
            have hstep : copyFromCb oracle repo (dest.map Label.name) true
                (l :: rest) =
                ([Request.mk "PATCH" (getPath repo l.name)
                  (some (serializeLabel l))], .err e) := by
              rw [copyFromCb]
              simp only [hcb, horacle]
            exact ⟨copyFromRequests repo dest rest true,
              by rw [hstep]; simp [actionRequest]⟩
      · have hcb : classifyCb (dest.map Label.name) upd l = .create l := by
          rw [classifyCb, if_neg hi]
        have hcl : classifyLabel (dest.map Label.name) upd l = .create l := by
          rw [classifyLabel, if_neg hi]
        rw [hcl]
        cases horacle : oracle (Request.mk "POST" (getPath repo)
            (some (serializeLabel l))) with
        | ok v =>
          have hstep : copyFromCb oracle repo (dest.map Label.name) upd
              (l :: rest) =
              (Request.mk "POST" (getPath repo) (some (serializeLabel l)) ::
                (copyFromCb oracle repo (dest.map Label.name) upd rest).1,
                (copyFromCb oracle repo (dest.map Label.name) upd rest).2) := by
            rw [copyFromCb]
            simp only [hcb, horacle]
          exact ⟨r, by rw [hstep]; simp [actionRequest, hr]⟩
        | error e =>
          have hstep : copyFromCb oracle repo (dest.map Label.name) upd
              (l :: rest) =
              ([Request.mk "POST" (getPath repo) (some (serializeLabel l))],
                .err e) := by
            rw [copyFromCb]
            simp only [hcb, horacle]
          exact ⟨copyFromRequests repo dest rest upd,
            by rw [hstep]; simp [actionRequest]⟩

/-- **C10 (counterexample).** With two fresh source labels against an empty
destination and a transport that rejects the first create, the promise
revision fires both POSTs while the callback revision, executing
sequentially through `metasync.series`, stops after the first: the two
revisions are not behaviorally equivalent for batch execution, and the
callback run neither attempts every operation nor aggregates the failure
with any later result. -/
theorem copyFrom_callback_not_concurrent :
    copyFromRequests "o/r" [] [alphaL, betaL] false =
      [Request.mk "POST" (getPath "o/r") (some (serializeLabel alphaL)),
        Request.mk "POST" (getPath "o/r") (some (serializeLabel betaL))] ∧
    (copyFromCb alphaFailOracle "o/r" (List.map Label.name ([] : List Label)) false
        [alphaL, betaL]).1 =
      [Request.mk "POST" (getPath "o/r") (some (serializeLabel alphaL))] ∧
    (copyFromCb alphaFailOracle "o/r" (List.map Label.name ([] : List Label)) false
        [alphaL, betaL]).2 = .err "boom" ∧
    (copyFromCb alphaFailOracle "o/r" (List.map Label.name ([] : List Label)) false
        [alphaL, betaL]).1 ≠ copyFromRequests "o/r" [] [alphaL, betaL] false := by
  refine ⟨by decide, by decide, by decide, by decide⟩

/-- A successful walk's first request is the initial path. -/
theorem getWithPagingGo_head {α : Type}
    (server : String → Option (List α × Option String)) :
    ∀ (fuel : Nat) (path : String) (log : List String) (acc : List α),
      getWithPagingGo server fuel path = some (log, acc) →
      log.head? = some path := by
  intro fuel path log acc h
  cases fuel with
  | zero => cases h
  | succ n =>
    rw [getWithPagingGo] at h
    cases hs : server path with
    | none => rw [hs] at h; cases h
    | some pr =>
      obtain ⟨items, linkopt⟩ := pr
      simp only [hs] at h
      cases linkopt with
      | none =>
        simp only [Option.some.injEq, Prod.mk.injEq] at h
        rw [← h.1]
        rfl
      | some link =>
        cases hn : jsMapGet (parseLinkHeader link) "next" with
        | none =>
          simp only [hn] at h
          simp only [Option.some.injEq, Prod.mk.injEq] at h
          rw [← h.1]
          rfl
        | some next =>
          simp only [hn] at h
          by_cases he : next = ""
          · rw [if_pos he] at h
            simp only [Option.some.injEq, Prod.mk.injEq] at h
            rw [← h.1]
            rfl
          · rw [if_neg he] at h
            cases hg : getWithPagingGo server n next with
            | none => rw [hg] at h; cases h
            | some r =>
              obtain ⟨log2, acc2⟩ := r
              simp only [hg] at h
              simp only [Option.some.injEq, Prod.mk.injEq] at h
              rw [← h.1]
              rfl

/-- `recordLabel` keeps every stored value equal to the search URL of its
key. -/
theorem recordLabel_wf (repo : String) (m : List (String × String)) (l : Label)
    (hwf : ∀ p ∈ m, p.2 = searchURL repo p.1) :
    ∀ p ∈ recordLabel repo m l, p.2 = searchURL repo p.1 := by
  intro p hp
  rw [recordLabel] at hp
  split at hp
  · exact hwf p hp
  · rcases List.mem_append.mp hp with hm | hnew
    · exact hwf p hm
    · have : p = (escapeName l.name, searchURL repo (escapeName l.name)) := by
        simpa using hnew
      rw [this]

/-- The label fold keeps the value invariant. -/
theorem foldLabels_wf (repo : String) :
    ∀ (labs : List Label) (m : List (String × String)),
      (∀ p ∈ m, p.2 = searchURL repo p.1) →
      ∀ p ∈ labs.foldl (recordLabel repo) m, p.2 = searchURL repo p.1 := by
  intro labs
  induction labs with
  | nil => intro m hm; simpa using hm
  | cons l rest ih =>
    intro m hm
    exact ih (recordLabel repo m l) (recordLabel_wf repo m l hm)

/-- The whole usage index satisfies the value invariant. -/
theorem getUsedLabelsIndex_wf (repo : String) (issues : List Issue) :
    ∀ p ∈ getUsedLabelsIndex repo issues, p.2 = searchURL repo p.1 := by
  rw [getUsedLabelsIndex]
  have : ∀ (iss : List Issue) (m : List (String × String)),
      (∀ p ∈ m, p.2 = searchURL repo p.1) →
      ∀ p ∈ iss.foldl
        (fun result issue => issue.labels.foldl (recordLabel repo) result) m,
        p.2 = searchURL repo p.1 := by
    intro iss
    induction iss with
    | nil => intro m hm; simpa using hm
    | cons i rest ih =>
      intro m hm
      exact ih (i.labels.foldl (recordLabel repo) m) (foldLabels_wf repo i.labels m hm)
  exact this issues [] (by simp)

/-- Inserting a label makes its escaped name a key. -/
theorem assocHas_recordLabel_self (repo : String) (m : List (String × String))
    (l : Label) :
    assocHas (recordLabel repo m l) (escapeName l.name) = true := by
  rw [recordLabel]
  split
  · assumption
  · simp [assocHas, List.any_append]

/-- Insertion never removes keys. -/
theorem assocHas_recordLabel_mono (repo : String) (m : List (String × String))
    (l : Label) (k : String) (h : assocHas m k = true) :
    assocHas (recordLabel repo m l) k = true := by
  rw [recordLabel]
  split
  · exact h
  · simp [assocHas, List.any_append]
    left
    simpa [assocHas] using h

/-- A key present before a label fold is present after it. -/
theorem assocHas_foldLabels_mono (repo : String) :
    ∀ (labs : List Label) (m : List (String × String)) (k : String),
      assocHas m k = true →
      assocHas (labs.foldl (recordLabel repo) m) k = true := by
  intro labs
  induction labs with
  | nil => intro m k h; simpa using h
  | cons l rest ih =>
    intro m k h
    exact ih (recordLabel repo m l) k (assocHas_recordLabel_mono repo m l k h)

/-- Every label of the list ends up as a key of the label fold. -/
theorem assocHas_foldLabels_self (repo : String) :
    ∀ (labs : List Label) (m : List (String × String)) (l : Label), l ∈ labs →
      assocHas (labs.foldl (recordLabel repo) m) (escapeName l.name) = true := by
  intro labs
  induction labs with
  | nil => intro m l h; cases h
  | cons x rest ih =>
    intro m l h
    rcases List.mem_cons.mp h with heq | hrest
    · subst heq
      exact assocHas_foldLabels_mono repo rest (recordLabel repo m l)
        (escapeName l.name) (assocHas_recordLabel_self repo m l)
    · exact ih (recordLabel repo m x) l hrest

/-- Every label attached to any issue ends up as a key of the usage
index. -/
theorem assocHas_getUsedLabelsIndex (repo : String) (issues : List Issue)
    (issue : Issue) (hi : issue ∈ issues) (l : Label) (hl : l ∈ issue.labels) :
    assocHas (getUsedLabelsIndex repo issues) (escapeName l.name) = true := by
  rw [getUsedLabelsIndex]
  have main : ∀ (iss : List Issue) (m : List (String × String)),
      issue ∈ iss →
      assocHas (iss.foldl
        (fun result i => i.labels.foldl (recordLabel repo) result) m)
        (escapeName l.name) = true := by
    intro iss
    induction iss with
    | nil => intro m h; cases h
    | cons i rest ih =>
      intro m h
      rcases List.mem_cons.mp h with heq | hrest
      · subst heq
        have hbase := assocHas_foldLabels_self repo issue.labels m l hl
        have mono : ∀ (iss2 : List Issue) (m2 : List (String × String)),
            assocHas m2 (escapeName l.name) = true →
            assocHas (iss2.foldl
              (fun result i => i.labels.foldl (recordLabel repo) result) m2)
              (escapeName l.name) = true := by
          intro iss2
          induction iss2 with
          | nil => intro m2 h2; simpa using h2
          | cons j rest2 ih2 =>
            intro m2 h2
            exact ih2 (j.labels.foldl (recordLabel repo) m2)
              (assocHas_foldLabels_mono repo j.labels m2 (escapeName l.name) h2)
        exact mono rest (issue.labels.foldl (recordLabel repo) m) hbase
      · exact ih (i.labels.foldl (recordLabel repo) m) hrest
  exact main issues [] hi

/-- On a well-formed index, a present key looks up to its search URL. -/
theorem assocGet_of_has (repo : String) :
    ∀ (m : List (String × String)) (k : String),
      assocHas m k = true → (∀ p ∈ m, p.2 = searchURL repo p.1) →
      assocGet m k = some (searchURL repo k) := by
  intro m
  induction m with
  | nil => intro k h _; cases h
  | cons p rest ih =>
    intro k h hwf
    by_cases hk : p.1 = k
    · have hv : p.2 = searchURL repo p.1 := hwf p (List.mem_cons_self p rest)
      rw [assocGet]
      rw [List.find?_cons_of_pos _ (by simpa using hk)]
      simp [hv, hk]
    · rw [assocGet, List.find?_cons_of_neg _ (by simpa using hk)]
      rw [assocHas, List.any_cons] at h
      have hrest : assocHas rest k = true := by
        rcases Bool.or_eq_true_iff.mp h with h1 | h2
        · exact absurd (by simpa using h1) hk
        · exact h2
      have := ih k hrest fun q hq => hwf q (List.mem_cons_of_mem p hq)
      rw [assocGet] at this
      exact this

/-- **C8.** `getUsedLabels` walks all issues — open and closed — through
the pagination walker (the first request goes to
`/repos/{repo}/issues?state=all&per_page=100`), and every label attached
to any returned issue is a member of the resulting index under its escaped
name, mapped to the constructed search-issues-by-label URL (the URL is a
function of the name, so the first-seen URL kept for a name is exactly this
one). -/
theorem getUsedLabels_records_attached
    (server : String → Option (List Issue × Option String)) (fuel : Nat)
    (repo : String) (log : List String) (issues : List Issue)
    (h : getWithPaging server fuel (issuesPath repo) = some (log, issues)) :
    getUsedLabels server fuel repo =
      some (log, getUsedLabelsIndex repo issues) ∧
    log.head? = some (issuesPath repo ++ "&" ++ "per_page=100") ∧
    ∀ issue ∈ issues, ∀ l ∈ issue.labels,
      assocGet (getUsedLabelsIndex repo issues) (escapeName l.name) =
        some (searchURL repo (escapeName l.name)) := by
  refine ⟨by rw [getUsedLabels, h]; rfl, ?_, ?_⟩
  · have hq : jsIncludes (issuesPath repo) '?' = true := by
      have hmem : '?' ∈ (issuesPath repo).toList := by
        rw [issuesPath]
        show '?' ∈ (("/repos/" ++ repo) ++ "/issues?state=all").data
        rw [String.data_append]
        exact List.mem_append_right _ (by decide)
      simpa [jsIncludes, List.contains_iff_exists_mem_beq] using hmem
    rw [getWithPaging, hq] at h
    simpa using getWithPagingGo_head server fuel _ log issues h
  · intro issue hi l hl
    exact assocGet_of_has repo (getUsedLabelsIndex repo issues)
      (escapeName l.name)
      (assocHas_getUsedLabelsIndex repo issues issue hi l hl)
      (getUsedLabelsIndex_wf repo issues)

/-- Witness for `getUsedLabels_records_attached`: one page, one issue, one
attached label `bug`. -/
theorem getUsedLabels_records_attached_witness :
    getWithPaging issueServer1 1 (issuesPath "o/r") =
      some (["/repos/o/r/issues?state=all&per_page=100"],
        [Issue.mk [Label.mk "bug" "d73a4a" none]]) ∧
    (getUsedLabels issueServer1 1 "o/r" =
      some (["/repos/o/r/issues?state=all&per_page=100"],
        getUsedLabelsIndex "o/r" [Issue.mk [Label.mk "bug" "d73a4a" none]]) ∧
      ["/repos/o/r/issues?state=all&per_page=100"].head? =
        some (issuesPath "o/r" ++ "&" ++ "per_page=100") ∧
      ∀ issue ∈ [Issue.mk [Label.mk "bug" "d73a4a" none]],
        ∀ l ∈ issue.labels,
        assocGet
          (getUsedLabelsIndex "o/r" [Issue.mk [Label.mk "bug" "d73a4a" none]])
          (escapeName l.name) =
          some (searchURL "o/r" (escapeName l.name))) :=
  ⟨by decide,
    getUsedLabels_records_attached issueServer1 1 "o/r"
      ["/repos/o/r/issues?state=all&per_page=100"]
      [Issue.mk [Label.mk "bug" "d73a4a" none]] (by decide)⟩

end LabelsJs
